import Mathlib

/-!
# acibuilder: the differential image builder (`diff.go`)

A shallow embedding of `DiffACIBuilder.Build` and of the library calls it makes
(`filepath.Join`, `filepath.Rel`, `filepath.Walk`, the Differ, the image writer and
the two stream layers), followed by the properties of the selection of files, of the
path whitelist, of the manifest and of the error paths.

Go strings are modelled by `String`; the path functions only look at the bytes `/`
and `.`, so working on characters instead of bytes makes no difference for them.
-/

namespace Acibuilder

/-! ## Errors -/

/-- A Go `error` value.  `SkipDir` is the sentinel `filepath.SkipDir`; every other
error is a message. -/
inductive GoError where
  | SkipDir
  | New (msg : String)
  deriving DecidableEq, Repr

/-- The method `Error()` of an error value. -/
def GoError.Error : GoError → String
  | .SkipDir => "skip this directory"
  | .New msg => msg

/-- The call `fmt.Errorf(prefix + "%v", err)`. -/
def Errorf (pre : String) (err : GoError) : GoError :=
  .New (pre ++ err.Error)

/-! ## `path/filepath` (Unix): `Clean`, `Join`, `Rel` -/

/-- The elements of a path between its separators `/`; the empty path has the single
element `""`, a leading or trailing separator gives an empty first or last element. -/
def splitSlash : List Char → List (List Char)
  | [] => [[]]
  | c :: cs =>
    match splitSlash cs with
    | [] => [[]]
    | e :: es => if c = '/' then [] :: e :: es else (c :: e) :: es

/-- One step of the loop of `filepath.Clean` over a whole path element `e`; `out` is
the output written so far as a stack of elements, the last written first.  An empty
element and `.` are dropped; `..` removes the last real element when there is one
(`out.w > dotdot`), is appended when the path is not rooted and is dropped otherwise;
any other element is appended. -/
def cleanElem (rooted : Bool) (out : List (List Char)) (e : List Char) : List (List Char) :=
  if e = [] ∨ e = ['.'] then out
  else if e = ['.', '.'] then
    match out with
    | [] => if rooted then out else [e]
    | top :: below =>
      if top = ['.', '.'] then (if rooted then out else e :: out) else below
  else e :: out

/-- The function `filepath.Clean` on the characters of a path. -/
def cleanChars (path : List Char) : List Char :=
  if path = [] then ['.']
  else
    let rooted : Bool := path.head? = some '/'
    let out := (splitSlash path).foldl (cleanElem rooted) []
    let body := List.intercalate ['/'] out.reverse
    if rooted then '/' :: body
    else if body = [] then ['.'] else body

/-- The function `filepath.Clean`. -/
def Clean (path : String) : String :=
  ⟨cleanChars path.data⟩

/-- The call `filepath.Join(a, b)`: the first non-empty argument and what follows it
are joined by `/` and cleaned; two empty arguments give the empty string. -/
def Join (a b : String) : String :=
  if a ≠ "" then Clean (a ++ "/" ++ b)
  else if b ≠ "" then Clean b
  else ""

/-- The elements still to be read of a path in the loop of `filepath.Rel`: none when
what is left of the string is empty. -/
def relRest (es : List (List Char)) : List (List Char) :=
  if es = [[]] then [] else es

/-- The loop of `filepath.Rel` that positions both paths at their first differing
elements.  `bs` and `ts` are the elements of `base[b0:]` and `targ[t0:]`.  The loop
stops when either string is exhausted (`bi < bl && ti < tl` fails), or at the first
pair of differing elements; equal elements are consumed with their separators.  The
result is `base[b0:bi]` and the elements of `base[b0:]` and of `targ[t0:]` at the exit
of the loop. -/
def relLoop : List (List Char) → List (List Char) →
    List Char × List (List Char) × List (List Char)
  | [], ts => ([], [], relRest ts)
  | b :: bs, [] => ([], relRest (b :: bs), [])
  | b :: bs, t :: ts =>
    if b :: bs = [[]] ∨ t :: ts = [[]] then ([], relRest (b :: bs), relRest (t :: ts))
    else if t ≠ b then (b, b :: bs, t :: ts)
    else relLoop bs ts

/-- The function `filepath.Rel` on the characters of the two paths. -/
def relChars (basepath targpath : List Char) : Except GoError (List Char) :=
  let base := cleanChars basepath
  let targ := cleanChars targpath
  if targ = base then .ok ['.']
  else
    let base := if base = ['.'] then [] else base
    let baseSlashed : Bool := base.head? = some '/'
    let targSlashed : Bool := targ.head? = some '/'
    let failure : GoError := .New ("Rel: can't make " ++ String.mk targpath ++
      " relative to " ++ String.mk basepath)
    if baseSlashed ≠ targSlashed then .error failure
    else
      match relLoop (splitSlash base) (splitSlash targ) with
      | (cur, bs, ts) =>
        if cur = ['.', '.'] then .error failure
        else if bs ≠ [] then
          let up := List.intercalate ['/'] (List.replicate bs.length ['.', '.'])
          .ok (if ts ≠ [] then up ++ '/' :: List.intercalate ['/'] ts else up)
        else .ok (List.intercalate ['/'] ts)

/-- The function `filepath.Rel`. -/
def Rel (basepath targpath : String) : Except GoError String :=
  (relChars basepath.data targpath.data).map String.mk

/-! ## `filepath.Walk` over a file tree -/

/-- What `os.FileInfo` tells the walk about an entry. -/
structure FileInfo where
  IsDir : Bool
  deriving DecidableEq, Repr

mutual
/-- An entry of the file system as `filepath.Walk` meets it: `file` is any entry that
is not a directory, `dir` a directory with its entries in the order of
`readDirNames` (sorted by name), `unreadable` a directory whose listing fails with
the given error, `noStat` a name whose `Lstat` fails with the given error. -/
inductive Node where
  | file : Node
  | dir : Entries → Node
  | unreadable : String → Node
  | noStat : String → Node
/-- The named entries of a directory. -/
inductive Entries where
  | nil : Entries
  | cons : String → Node → Entries → Entries
end

/-- Whether `Lstat` reports a directory. -/
def Node.IsDir : Node → Bool
  | .file => false
  | .dir _ => true
  | .unreadable _ => true
  | .noStat _ => false

/-- The type `filepath.WalkFunc`, for a callback that keeps a state of type `σ`:
the arguments are `path`, `info` and `err`, the result is the new state and the
returned error. -/
abbrev WalkFunc (σ : Type) := String → Option FileInfo → Option GoError → σ → σ × Option GoError

mutual
/-- The function `walk` of `path/filepath` (in the version that calls the callback once
per entry): a non-directory is handed to the
callback; for a directory the callback gets the directory with the error of its
listing, and unless either failed the entries are walked in order.  On a `noStat`
node this is the call `walkFn(path, nil, err)` that `Walk` and the loop make. -/
def walk {σ : Type} (walkFn : WalkFunc σ) (path : String) : Node → σ → σ × Option GoError
  | .file, s => walkFn path (some ⟨false⟩) none s
  | .noStat e, s => walkFn path none (some (.New e)) s
  | .unreadable e, s => walkFn path (some ⟨true⟩) (some (.New e)) s
  | .dir es, s =>
    match walkFn path (some ⟨true⟩) none s with
    | (s1, some err1) => (s1, some err1)
    | (s1, none) => walkEntries walkFn path es s1
/-- The loop `for _, name := range names` of `walk`. -/
def walkEntries {σ : Type} (walkFn : WalkFunc σ) (path : String) :
    Entries → σ → σ × Option GoError
  | .nil, s => (s, none)
  | .cons name n rest, s =>
    match n with
    | .noStat e =>
      match walkFn (Join path name) none (some (.New e)) s with
      | (s1, some err) =>
        if err ≠ .SkipDir then (s1, some err) else walkEntries walkFn path rest s1
      | (s1, none) => walkEntries walkFn path rest s1
    | n =>
      match walk walkFn (Join path name) n s with
      | (s1, some err) =>
        if !n.IsDir ∨ err ≠ .SkipDir then (s1, some err)
        else walkEntries walkFn path rest s1
      | (s1, none) => walkEntries walkFn path rest s1
end

/-- The function `filepath.Walk(root, walkFn)` on the tree `t` found at `root`. -/
def Walk {σ : Type} (root : String) (t : Node) (walkFn : WalkFunc σ) (s : σ) :
    σ × Option GoError :=
  match walk walkFn root t s with
  | (s1, some .SkipDir) => (s1, none)
  | r => r

/-- One call of the callback: the path, the file information and the error handed
to it. -/
structure Visit where
  path : String
  info : Option FileInfo
  err : Option GoError
  deriving DecidableEq, Repr

mutual
/-- The entries a walk of the tree reaches, in traversal order, when the callback
never stops it: the node itself, then, for a directory, its entries in order. -/
def visits (path : String) : Node → List Visit
  | .file => [⟨path, some ⟨false⟩, none⟩]
  | .noStat e => [⟨path, none, some (.New e)⟩]
  | .unreadable e => [⟨path, some ⟨true⟩, some (.New e)⟩]
  | .dir es => ⟨path, some ⟨true⟩, none⟩ :: visitsEntries path es
/-- The entries reached below a directory. -/
def visitsEntries (path : String) : Entries → List Visit
  | .nil => []
  | .cons name n rest => visits (Join path name) n ++ visitsEntries path rest
end

/-- The calls of the callback over a list of entries in order, up to the first call
that returns an error. -/
def runVisits {σ : Type} (walkFn : WalkFunc σ) : List Visit → σ → σ × Option GoError
  | [], s => (s, none)
  | v :: vs, s =>
    match walkFn v.path v.info v.err s with
    | (s1, some err) => (s1, some err)
    | (s1, none) => runVisits walkFn vs s1

/-- A callback that returns `SkipDir` at most when the walk hands it `SkipDir`. -/
def NoSkip {σ : Type} (walkFn : WalkFunc σ) : Prop :=
  ∀ path info err s, err ≠ some .SkipDir → (walkFn path info err s).2 ≠ some .SkipDir

/-! ## The Differ, the manifest and the builder -/

/-- Modelled from the spec: the type `fsdiffer.ChangeType` is declared outside the
sources; the kinds are those of the Differ interface. -/
inductive ChangeType where
  | Added
  | Modified
  | Deleted
  | Unchanged
  deriving DecidableEq, Repr

/-- Modelled from the spec: a change record of the Differ (declared outside the
sources), a path relative to the compared roots and its kind. -/
structure Change where
  Path : String
  ChangeType : ChangeType
  deriving DecidableEq, Repr

/-- The type `schema.ImageManifest`.  Its declaration is not among the sources; all
its fields other than `PathWhitelist` are carried together in `Fields`. -/
structure ImageManifest (μ : Type) where
  Fields : μ
  PathWhitelist : List String
  deriving DecidableEq, Repr

/-- The struct `DiffACIBuilder`. -/
structure DiffACIBuilder where
  basePath : String
  path : String
  deriving DecidableEq, Repr

/-- The constructor `NewDiffACIBuilder`. -/
def NewDiffACIBuilder (basePath : String) (path : String) : DiffACIBuilder :=
  { basePath := basePath, path := path }

/-- The local variable `baseRootFS` of `Build`. -/
def DiffACIBuilder.baseRootFS (b : DiffACIBuilder) : String :=
  Join b.basePath "/rootfs"

/-- The local variable `rootFS` of `Build`. -/
def DiffACIBuilder.rootFS (b : DiffACIBuilder) : String :=
  Join b.path "/rootfs"

/-- What the world outside `Build` answers during one run: the result of the Differ on
two roots, the file tree that a walk finds at a root, the message of the error (if any)
of adding the entry at a path to the image writer, and the results of closing the image
writer, the tar writer and the gzip writer. -/
structure Env where
  Diff : String → String → Except GoError (List Change)
  Tree : String → Node
  AddFile : String → Option String
  awClose : Option GoError
  trClose : Option GoError
  gwClose : Option GoError

/-- The calls `Build` makes on the outside world, in the order it makes them; a close
is recorded with the error it returned. -/
inductive Event (μ : Type) where
  | Diff (baseRootFS rootFS : String)
  | Walk (root : String)
  | GzipNewWriter
  | TarNewWriter
  | NewImageWriter (im : ImageManifest μ)
  | AddFile (path : String)
  | ImageWriterClose (err : Option GoError)
  | TarClose (err : Option GoError)
  | GzipClose (err : Option GoError)
  deriving DecidableEq, Repr

/-- Whether a call pushes bytes towards the output stream `out`: adding an entry and
the three closes do; creating the writers and reading the file system do not. -/
def Event.writes {μ : Type} : Event μ → Bool
  | .AddFile _ => true
  | .ImageWriterClose _ => true
  | .TarClose _ => true
  | .GzipClose _ => true
  | _ => false

/-- The result of one run of `Build`: the returned error and the calls made. -/
structure Run (μ : Type) where
  err : Option GoError
  trace : List (Event μ)

/-- The local variables `files` and `hasDeleted` of `Build`. -/
structure Selection where
  files : Finset String
  hasDeleted : Bool

/-- The body of the loop `for _, c := range changes` of `Build`. -/
def selectStep (rootFS : String) (sel : Selection) (c : Change) : Selection :=
  { files :=
      if c.ChangeType = .Added ∨ c.ChangeType = .Modified then
        insert (Join rootFS c.Path) sel.files
      else sel.files
    hasDeleted :=
      if sel.hasDeleted = false ∧ c.ChangeType = .Deleted then true
      else sel.hasDeleted }

/-- The loop of `Build` that creates the file list with all the Added and Modified
files and the flag `hasDeleted`. -/
def selectFiles (rootFS : String) (changes : List Change) : Selection :=
  changes.foldl (selectStep rootFS) { files := ∅, hasDeleted := false }

/-- The callback of the walk that composes `pathWhitelist`.  The parameter `err` is
assigned anew by `relpath, err := filepath.Rel(rootFS, path)` before it is read, so
the error handed in by the walk plays no part. -/
def whitelistFn (rootFS : String) : WalkFunc (List String) :=
  fun path _info _err pathWhitelist =>
    match Rel rootFS path with
    | .error err => (pathWhitelist, some err)
    | .ok relpath => (pathWhitelist ++ [Join "/" relpath], none)

/-- The value of `pathWhitelist` and of `err` after the block
`if hasDeleted { err = filepath.Walk(rootFS, ...) }` of `Build`. -/
def composeWhitelist (env : Env) (rootFS : String) (hasDeleted : Bool) :
    List String × Option GoError :=
  if hasDeleted then Walk rootFS (env.Tree rootFS) (whitelistFn rootFS) []
  else ([], none)

/-- Modelled from the spec: `BuildWalker` is declared in a file of the package that
is not among the sources.  Per the ArchiveAssembler contract, a traversal error is
fatal, an entry whose path is a member of the inclusion set is written into the
archive (a rejected write is fatal), and any other entry is skipped without
stopping the walk. -/
def BuildWalker {μ : Type} (env : Env) (_root : String) (files : Finset String) :
    WalkFunc (List (Event μ)) :=
  fun path _info err trace =>
    match err with
    | some e => (trace, some e)
    | none =>
      if path ∈ files then (trace ++ [.AddFile path], (env.AddFile path).map .New)
      else (trace, none)

/-- The deferred function of `Build`: `tr.Close()` then `gw.Close()`, both results
dropped. -/
def deferredClose {μ : Type} (env : Env) (trace : List (Event μ)) : List (Event μ) :=
  trace ++ [.TarClose env.trClose, .GzipClose env.gwClose]

/-- The method `DiffACIBuilder.Build(im, out)`: the returned error and the calls
made, given the answers of the outside world.  The deferred closes run on every return
after the two writers were created.  In the message of the last error the text that
`%s` prints for `out` is left out. -/
def DiffACIBuilder.Build {μ : Type} (env : Env) (b : DiffACIBuilder)
    (im : ImageManifest μ) : Run μ :=
  let baseRootFS := b.baseRootFS
  let rootFS := b.rootFS
  match env.Diff baseRootFS rootFS with
  | .error err => ⟨some err, [.Diff baseRootFS rootFS]⟩
  | .ok changes =>
    let sel := selectFiles rootFS changes
    let walked : List (Event μ) := if sel.hasDeleted then [.Walk rootFS] else []
    match composeWhitelist env rootFS sel.hasDeleted with
    | (_, some err) =>
      ⟨some (Errorf "error walking rootfs: " err), .Diff baseRootFS rootFS :: walked⟩
    | (pathWhitelist, none) =>
      let im1 : ImageManifest μ := { im with PathWhitelist := pathWhitelist }
      let trace := .Diff baseRootFS rootFS :: walked ++
        [.GzipNewWriter, .TarNewWriter, .NewImageWriter im1, .Walk b.path]
      match Walk b.path (env.Tree b.path) (BuildWalker env b.path sel.files) trace with
      | (trace, some err) =>
        ⟨some (Errorf "error walking rootfs: " err), deferredClose env trace⟩
      | (trace, none) =>
        match env.awClose with
        | some err =>
          ⟨some (Errorf "unable to close image: " err),
            deferredClose env (trace ++ [.ImageWriterClose (some err)])⟩
        | none => ⟨none, deferredClose env (trace ++ [.ImageWriterClose none])⟩

/-! ## Vocabulary of the properties -/

/-- The path of an entry relative to the root file system, rooted with a leading
`/`: `Join("/", Rel(rootFS, path))`, or the error of `Rel`. -/
def rootedPath (rootFS path : String) : Except GoError String :=
  (Rel rootFS path).map (Join "/")

/-- The full path listing of the tree at `rootFS`: the rooted relative path of every
entry a walk of the tree reaches, in traversal order. -/
def pathListing (rootFS : String) (t : Node) : List (Except GoError String) :=
  (visits rootFS t).map (fun v => rootedPath rootFS v.path)

/-- The manifests handed to `aci.NewImageWriter` during a run. -/
def handedManifests {μ : Type} (trace : List (Event μ)) : List (ImageManifest μ) :=
  trace.filterMap (fun e => match e with
    | .NewImageWriter im => some im
    | _ => none)

/-- The paths of the file entries written into the archive during a run. -/
def archiveEntries {μ : Type} (trace : List (Event μ)) : List String :=
  trace.filterMap (fun e => match e with
    | .AddFile path => some path
    | _ => none)

/-- Modelled from the spec: the Differ (declared outside the sources) puts every path
in exactly one change record, so no two records of its list name the same path of the
target. -/
def OneRecordPerPath (rootFS : String) (changes : List Change) : Prop :=
  (changes.map (fun c => Join rootFS c.Path)).Nodup

/-- The paths of the entries of the target tree, as the walk of the target path
reaches them. -/
def targetPaths (env : Env) (b : DiffACIBuilder) : List String :=
  (visits b.path (env.Tree b.path)).map (fun v => v.path)

/-- Modelled from the spec: the invariant of the InclusionSet, every path in it exists
under the target; the paths of the entries of the target tree are distinct. -/
def ExistsUnderTarget (env : Env) (b : DiffACIBuilder) (files : Finset String) : Prop :=
  (targetPaths env b).Nodup ∧ ∀ p ∈ files, p ∈ targetPaths env b

/-- The roots of the walks made during a run. -/
def walkedRoots {μ : Type} (trace : List (Event μ)) : List String :=
  trace.filterMap (fun e => match e with
    | .Walk root => some root
    | _ => none)

/-! ## Example worlds -/

/-- The target of the deletion scenario: an image directory whose root file system
holds the single file `a.txt`. -/
def deletionTarget : Node :=
  .dir (.cons "manifest" .file (.cons "rootfs" (.dir (.cons "a.txt" .file .nil)) .nil))

/-- The deletion scenario: base `{a.txt, b.txt}` extracted at `/base`, target `{a.txt}`
extracted at `/target`; the Differ reports `b.txt` as deleted and every call succeeds. -/
def deletionEnv : Env where
  Diff := fun _ _ => .ok [⟨"b.txt", .Deleted⟩]
  Tree := fun root =>
    if root = "/target/rootfs" then .dir (.cons "a.txt" .file .nil) else deletionTarget
  AddFile := fun _ => none
  awClose := none
  trClose := none
  gwClose := none

/-- The builder of the example worlds. -/
def exampleBuilder : DiffACIBuilder :=
  NewDiffACIBuilder "/base" "/target"

/-- A world without deletion: base `{a.txt, b.txt}`, target `{a.txt, b.txt, c.txt}`
with `b.txt` modified and `c.txt` added. -/
def additionEnv : Env where
  Diff := fun _ _ => .ok [⟨"a.txt", .Unchanged⟩, ⟨"b.txt", .Modified⟩, ⟨"c.txt", .Added⟩]
  Tree := fun root =>
    if root = "/target/rootfs" then
      .dir (.cons "a.txt" .file (.cons "b.txt" .file (.cons "c.txt" .file .nil)))
    else
      .dir (.cons "manifest" .file (.cons "rootfs"
        (.dir (.cons "a.txt" .file (.cons "b.txt" .file (.cons "c.txt" .file .nil)))) .nil))
  AddFile := fun _ => none
  awClose := none
  trClose := none
  gwClose := none

/-- A world in which the Differ fails. -/
def diffFailEnv : Env :=
  { deletionEnv with Diff := fun _ _ => .error (.New "lstat /base/rootfs: no such file") }

/-- A world with a deletion in which the directory `d` of the target root file system
cannot be listed. -/
def unreadableEnv : Env :=
  { deletionEnv with
    Tree := fun root =>
      if root = "/target/rootfs" then
        .dir (.cons "a.txt" .file (.cons "d" (.unreadable "open d: permission denied") .nil))
      else
        .dir (.cons "manifest" .file (.cons "rootfs"
          (.dir (.cons "a.txt" .file (.cons "d" (.unreadable "open d: permission denied")
            .nil))) .nil)) }

/-- A world in which every call succeeds except the close of the gzip writer. -/
def gzipCloseFailEnv : Env :=
  { additionEnv with gwClose := some (.New "write: no space left on device") }

/-- A world in which every call succeeds except the deferred close of the tar writer. -/
def tarCloseFailEnv : Env :=
  { additionEnv with trClose := some (.New "write: broken pipe") }

/-- A world with a deletion in which the target holds a manifest and no root file
system: `Lstat` of the root file system fails. -/
def missingRootfsEnv : Env :=
  { deletionEnv with
    Tree := fun root =>
      if root = "/target/rootfs" then
        .noStat "lstat /target/rootfs: no such file or directory"
      else .dir (.cons "manifest" .file .nil) }

/-! ## The walk as a run over the entries it reaches -/

theorem runVisits_append {σ : Type} (walkFn : WalkFunc σ) (vs ws : List Visit) (s : σ) :
    runVisits walkFn (vs ++ ws) s =
      match runVisits walkFn vs s with
      | (s1, some err) => (s1, some err)
      | (s1, none) => runVisits walkFn ws s1 := by
  induction vs generalizing s with
  | nil => simp [runVisits]
  | cons v vs ih =>
    simp only [List.cons_append, runVisits]
    rcases h : walkFn v.path v.info v.err s with ⟨s1, _ | err⟩
    · exact ih s1
    · rfl

mutual
theorem visits_err (path : String) : ∀ (n : Node) (v : Visit),
    v ∈ visits path n → v.err ≠ some .SkipDir
  | .file, v, h => by simp [visits] at h; simp [h]
  | .noStat e, v, h => by simp [visits] at h; simp [h]
  | .unreadable e, v, h => by simp [visits] at h; simp [h]
  | .dir es, v, h => by
    simp only [visits, List.mem_cons] at h
    rcases h with h | h
    · simp [h]
    · exact visitsEntries_err path es v h
theorem visitsEntries_err (path : String) : ∀ (es : Entries) (v : Visit),
    v ∈ visitsEntries path es → v.err ≠ some .SkipDir
  | .nil, v, h => by simp [visitsEntries] at h
  | .cons name n rest, v, h => by
    simp only [visitsEntries, List.mem_append] at h
    rcases h with h | h
    · exact visits_err (Join path name) n v h
    · exact visitsEntries_err path rest v h
end

theorem runVisits_noSkip {σ : Type} (walkFn : WalkFunc σ) (hfn : NoSkip walkFn)
    (vs : List Visit) (hvs : ∀ v ∈ vs, v.err ≠ some .SkipDir) (s : σ) :
    (runVisits walkFn vs s).2 ≠ some .SkipDir := by
  induction vs generalizing s with
  | nil => simp [runVisits]
  | cons v vs ih =>
    simp only [runVisits]
    have hv := hfn v.path v.info v.err s (hvs v (List.mem_cons_self _ _))
    rcases h : walkFn v.path v.info v.err s with ⟨s1, _ | err⟩
    · exact ih (fun w hw => hvs w (List.mem_cons_of_mem _ hw)) s1
    · rw [h] at hv
      simpa using hv

mutual
theorem walk_eq_runVisits {σ : Type} (walkFn : WalkFunc σ) (hfn : NoSkip walkFn)
    (path : String) : ∀ (n : Node) (s : σ),
    walk walkFn path n s = runVisits walkFn (visits path n) s
  | .file, s => by
    simp only [walk, visits, runVisits]
    rcases walkFn path (some ⟨false⟩) none s with ⟨s1, _ | err⟩ <;> rfl
  | .noStat e, s => by
    simp only [walk, visits, runVisits]
    rcases walkFn path none (some (.New e)) s with ⟨s1, _ | err⟩ <;> rfl
  | .unreadable e, s => by
    simp only [walk, visits, runVisits]
    rcases walkFn path (some ⟨true⟩) (some (.New e)) s with ⟨s1, _ | err⟩ <;> rfl
  | .dir es, s => by
    simp only [walk, visits, runVisits]
    rcases walkFn path (some ⟨true⟩) none s with ⟨s1, _ | err⟩
    · exact walkEntries_eq_runVisits walkFn hfn path es s1
    · rfl
theorem walkEntries_eq_runVisits {σ : Type} (walkFn : WalkFunc σ) (hfn : NoSkip walkFn)
    (path : String) : ∀ (es : Entries) (s : σ),
    walkEntries walkFn path es s = runVisits walkFn (visitsEntries path es) s
  | .nil, s => by simp [walkEntries, visitsEntries, runVisits]
  | .cons name n rest, s => by
    have hrun := walk_eq_runVisits walkFn hfn (Join path name) n s
    have hskip := runVisits_noSkip walkFn hfn (visits (Join path name) n)
      (visits_err (Join path name) n) s
    have hrest := fun s1 => walkEntries_eq_runVisits walkFn hfn path rest s1
    rw [visitsEntries, runVisits_append, ← hrun]
    rw [← hrun] at hskip
    cases n <;> simp only [walkEntries] <;>
      rcases h : walk walkFn (Join path name) _ s with ⟨s1, _ | err⟩ <;>
      simp only [h] at hskip ⊢ <;> simp_all [walk]
end

theorem Walk_eq_runVisits {σ : Type} (walkFn : WalkFunc σ) (hfn : NoSkip walkFn)
    (root : String) (t : Node) (s : σ) :
    Walk root t walkFn s = runVisits walkFn (visits root t) s := by
  have hskip := runVisits_noSkip walkFn hfn (visits root t) (visits_err root t) s
  rw [← walk_eq_runVisits walkFn hfn] at hskip
  rw [← walk_eq_runVisits walkFn hfn]
  unfold Walk
  rcases h : walk walkFn root t s with ⟨s1, _ | err⟩
  · rfl
  · rw [h] at hskip
    cases err
    · simp at hskip
    · rfl

/-! ## The path functions -/

theorem Join_slash (rel : String) : Join "/" rel = ⟨'/' :: (Join "/" rel).data.tail⟩ := by
  have h : Join "/" rel = Clean ("/" ++ "/" ++ rel) := by
    unfold Join
    rw [if_pos (by decide)]
  rw [h]
  have hd : ("/" ++ "/" ++ rel).data = '/' :: '/' :: rel.data := by
    simp [String.data_append]
  simp [Clean, cleanChars, hd]

theorem Join_slash_rooted (rel : String) : ∃ rest : String, Join "/" rel = "/" ++ rest := by
  refine ⟨⟨(Join "/" rel).data.tail⟩, ?_⟩
  conv_lhs => rw [Join_slash]
  rfl

theorem Rel_self (path : String) : Rel path path = .ok "." := by
  simp [Rel, relChars, Except.map]

theorem Rel_error (basepath targpath : String) (err : GoError)
    (h : Rel basepath targpath = .error err) : err ≠ .SkipDir := by
  unfold Rel relChars at h
  simp only [] at h
  split_ifs at h <;> try (simp [Except.map] at h)
  all_goals
    subst h
    simp

theorem rootedPath_self (rootFS : String) : rootedPath rootFS rootFS = .ok "/" := by
  simp [rootedPath, Rel_self, Except.map]
  decide

/-! ## The selection of files -/

theorem foldl_selectStep_hasDeleted (rootFS : String) (cs : List Change) (sel : Selection) :
    (cs.foldl (selectStep rootFS) sel).hasDeleted =
      (sel.hasDeleted || cs.any (fun c => decide (c.ChangeType = .Deleted))) := by
  induction cs generalizing sel with
  | nil => simp
  | cons c cs ih =>
    rw [List.foldl_cons, ih]
    cases hd : sel.hasDeleted <;> by_cases hc : c.ChangeType = .Deleted <;>
      simp [selectStep, hd, hc]

theorem foldl_selectStep_files (rootFS : String) (cs : List Change) (sel : Selection)
    (p : String) :
    p ∈ (cs.foldl (selectStep rootFS) sel).files ↔
      p ∈ sel.files ∨ ∃ c ∈ cs,
        (c.ChangeType = .Added ∨ c.ChangeType = .Modified) ∧ p = Join rootFS c.Path := by
  induction cs generalizing sel with
  | nil => simp
  | cons c cs ih =>
    rw [List.foldl_cons, ih]
    by_cases hc : c.ChangeType = .Added ∨ c.ChangeType = .Modified
    · simp only [selectStep, if_pos hc, Finset.mem_insert, List.mem_cons, exists_eq_or_imp]
      constructor
      · rintro ((h | h) | h)
        · exact Or.inr (Or.inl ⟨hc, h⟩)
        · exact Or.inl h
        · exact Or.inr (Or.inr h)
      · rintro (h | ⟨_, h⟩ | h)
        · exact Or.inl (Or.inr h)
        · exact Or.inl (Or.inl h)
        · exact Or.inr h
    · simp only [selectStep, if_neg hc, List.mem_cons, exists_eq_or_imp]
      constructor
      · rintro (h | h)
        · exact Or.inl h
        · exact Or.inr (Or.inr h)
      · rintro (h | ⟨h, _⟩ | h)
        · exact Or.inl h
        · exact absurd h hc
        · exact Or.inr h

theorem mem_selectFiles (rootFS : String) (cs : List Change) (p : String) :
    p ∈ (selectFiles rootFS cs).files ↔
      ∃ c ∈ cs, (c.ChangeType = .Added ∨ c.ChangeType = .Modified) ∧ p = Join rootFS c.Path := by
  unfold selectFiles
  rw [foldl_selectStep_files]
  simp

theorem selectFiles_hasDeleted (rootFS : String) (cs : List Change) :
    (selectFiles rootFS cs).hasDeleted = cs.any (fun c => decide (c.ChangeType = .Deleted)) := by
  unfold selectFiles
  rw [foldl_selectStep_hasDeleted]
  simp

/-! ## The walk that composes the whitelist -/

theorem whitelistFn_noSkip (rootFS : String) : NoSkip (whitelistFn rootFS) := by
  intro path info err s _
  unfold whitelistFn
  cases h : Rel rootFS path with
  | error e => simpa using Rel_error rootFS path e h
  | ok relpath => simp

theorem runVisits_whitelistFn (rootFS : String) (vs : List Visit) (wl wl1 : List String)
    (h : runVisits (whitelistFn rootFS) vs wl = (wl1, none)) :
    ∃ names : List String, wl1 = wl ++ names ∧
      names.map Except.ok = vs.map (fun v => rootedPath rootFS v.path) := by
  induction vs generalizing wl with
  | nil =>
    simp only [runVisits, Prod.mk.injEq, and_true] at h
    exact ⟨[], by simp [h]⟩
  | cons v vs ih =>
    simp only [runVisits, whitelistFn] at h
    cases hrel : Rel rootFS v.path with
    | error e => simp [hrel] at h
    | ok relpath =>
      simp only [hrel] at h
      obtain ⟨names, h1, h2⟩ := ih _ h
      refine ⟨Join "/" relpath :: names, by simp [h1], ?_⟩
      simp [h2, rootedPath, hrel, Except.map]

theorem visits_head (root : String) (t : Node) :
    ∃ info err vs, visits root t = ⟨root, info, err⟩ :: vs := by
  cases t <;> simp [visits]

theorem composeWhitelist_false (env : Env) (rootFS : String) :
    composeWhitelist env rootFS false = ([], none) := by
  simp [composeWhitelist]

theorem composeWhitelist_true (env : Env) (rootFS : String) (wl : List String)
    (h : composeWhitelist env rootFS true = (wl, none)) :
    wl.map Except.ok = pathListing rootFS (env.Tree rootFS) := by
  simp only [composeWhitelist, if_true] at h
  rw [Walk_eq_runVisits _ (whitelistFn_noSkip rootFS)] at h
  obtain ⟨names, h1, h2⟩ := runVisits_whitelistFn rootFS _ _ _ h
  simp only [List.nil_append] at h1
  rw [h1, h2, pathListing]

theorem pathListing_head (rootFS : String) (t : Node) :
    ∃ rest, pathListing rootFS t = .ok "/" :: rest := by
  obtain ⟨info, err, vs, h⟩ := visits_head rootFS t
  exact ⟨vs.map (fun v => rootedPath rootFS v.path), by simp [pathListing, h, rootedPath_self]⟩

theorem pathListing_rooted (rootFS : String) (t : Node) (s : String)
    (h : Except.ok s ∈ pathListing rootFS t) : ∃ rest : String, s = "/" ++ rest := by
  simp only [pathListing, List.mem_map] at h
  obtain ⟨v, _, hv⟩ := h
  unfold rootedPath at hv
  cases hrel : Rel rootFS v.path with
  | error e => simp [hrel, Except.map] at hv
  | ok relpath =>
    simp only [hrel, Except.map, Except.ok.injEq] at hv
    rw [← hv]
    exact Join_slash_rooted relpath

/-! ## The walk that assembles the archive -/

theorem BuildWalker_noSkip {μ : Type} (env : Env) (root : String) (files : Finset String) :
    NoSkip (BuildWalker env root files : WalkFunc (List (Event μ))) := by
  intro path info err s herr
  unfold BuildWalker
  cases err with
  | some e => simpa using herr
  | none =>
    by_cases hp : path ∈ files
    · cases h : env.AddFile path <;> simp [hp, h]
    · simp [hp]

theorem runVisits_BuildWalker {μ : Type} (env : Env) (root : String) (files : Finset String)
    (vs : List Visit) (trace : List (Event μ)) :
    ∃ adds : List String,
      (runVisits (BuildWalker env root files) vs trace).1 = trace ++ adds.map Event.AddFile ∧
      (∀ p ∈ adds, p ∈ files) ∧
      ((runVisits (BuildWalker env root files) vs trace).2 = none →
        adds = (vs.map (fun v => v.path)).filter (fun p => decide (p ∈ files))) := by
  induction vs generalizing trace with
  | nil => exact ⟨[], by simp [runVisits]⟩
  | cons v vs ih =>
    simp only [runVisits, BuildWalker]
    cases herr : v.err with
    | some e => exact ⟨[], by simp⟩
    | none =>
      by_cases hp : v.path ∈ files
      · cases hadd : env.AddFile v.path with
        | some e => exact ⟨[v.path], by simp [hp, hadd]⟩
        | none =>
          obtain ⟨adds, h1, h2, h3⟩ := ih (trace ++ [Event.AddFile v.path])
          refine ⟨v.path :: adds, ?_, ?_, ?_⟩
          · simp [hp, hadd, h1]
          · intro p hmem
            rcases List.mem_cons.mp hmem with h | h
            · exact h ▸ hp
            · exact h2 p h
          · intro hnone
            simp only [hp, hadd, if_true, Option.map_none'] at hnone
            simp [hp, h3 hnone]
      · obtain ⟨adds, h1, h2, h3⟩ := ih trace
        refine ⟨adds, ?_, h2, ?_⟩
        · simp [hp, h1]
        · intro hnone
          simp only [hp, if_false] at hnone
          simp [hp, h3 hnone]

/-! ## The runs of `Build` -/

theorem Build_diff_error {μ : Type} (env : Env) (b : DiffACIBuilder) (im : ImageManifest μ)
    (err : GoError) (hdiff : env.Diff b.baseRootFS b.rootFS = .error err) :
    DiffACIBuilder.Build env b im = ⟨some err, [.Diff b.baseRootFS b.rootFS]⟩ := by
  simp [DiffACIBuilder.Build, hdiff]

theorem Build_whitelist_error {μ : Type} (env : Env) (b : DiffACIBuilder)
    (im : ImageManifest μ) (changes : List Change) (wl : List String) (err : GoError)
    (hdiff : env.Diff b.baseRootFS b.rootFS = .ok changes)
    (hwl : composeWhitelist env b.rootFS (selectFiles b.rootFS changes).hasDeleted =
      (wl, some err)) :
    DiffACIBuilder.Build env b im =
      ⟨some (Errorf "error walking rootfs: " err),
        .Diff b.baseRootFS b.rootFS ::
          (if (selectFiles b.rootFS changes).hasDeleted then [.Walk b.rootFS] else [])⟩ := by
  simp [DiffACIBuilder.Build, hdiff, hwl]

theorem Build_reaches {μ : Type} (env : Env) (b : DiffACIBuilder) (im : ImageManifest μ)
    (changes : List Change) (wl : List String)
    (hdiff : env.Diff b.baseRootFS b.rootFS = .ok changes)
    (hwl : composeWhitelist env b.rootFS (selectFiles b.rootFS changes).hasDeleted =
      (wl, none)) :
    ∃ (adds : List String) (closing : List (Event μ)),
      (DiffACIBuilder.Build env b im).trace =
        (.Diff b.baseRootFS b.rootFS ::
          (if (selectFiles b.rootFS changes).hasDeleted then [.Walk b.rootFS] else []) ++
          [.GzipNewWriter, .TarNewWriter,
            .NewImageWriter { Fields := im.Fields, PathWhitelist := wl }, .Walk b.path]) ++
        adds.map Event.AddFile ++ closing ++
        [.TarClose env.trClose, .GzipClose env.gwClose] ∧
      (closing = [] ∨ closing = [.ImageWriterClose env.awClose]) ∧
      (∀ p ∈ adds, p ∈ (selectFiles b.rootFS changes).files) ∧
      ((DiffACIBuilder.Build env b im).err = none →
        env.awClose = none ∧ closing = [.ImageWriterClose none] ∧
        adds = ((visits b.path (env.Tree b.path)).map (fun v => v.path)).filter
          (fun p => decide (p ∈ (selectFiles b.rootFS changes).files))) := by
  simp only [DiffACIBuilder.Build, hdiff, hwl]
  rw [Walk_eq_runVisits _ (BuildWalker_noSkip env b.path _)]
  obtain ⟨adds, h1, h2, h3⟩ := runVisits_BuildWalker env b.path
    (selectFiles b.rootFS changes).files (visits b.path (env.Tree b.path))
    (.Diff b.baseRootFS b.rootFS ::
      (if (selectFiles b.rootFS changes).hasDeleted then [.Walk b.rootFS] else []) ++
      [.GzipNewWriter, .TarNewWriter,
        .NewImageWriter ({ Fields := im.Fields, PathWhitelist := wl } : ImageManifest μ),
        .Walk b.path])
  revert h1 h3
  rcases runVisits (BuildWalker env b.path (selectFiles b.rootFS changes).files)
    (visits b.path (env.Tree b.path)) _ with ⟨trace, _ | err⟩
  · intro h1 h3
    simp only at h1
    cases hclose : env.awClose with
    | none =>
      exact ⟨adds, [.ImageWriterClose none], by simp [deferredClose, h1], by simp, h2,
        fun _ => ⟨rfl, rfl, h3 rfl⟩⟩
    | some e =>
      exact ⟨adds, [.ImageWriterClose (some e)], by simp [deferredClose, h1], by simp, h2,
        fun h => by simp at h⟩
  · intro h1 h3
    simp only at h1
    exact ⟨adds, [], by simp [deferredClose, h1], by simp, h2, fun h => by simp at h⟩

theorem handedManifests_AddFile {μ : Type} (adds : List String) :
    handedManifests (adds.map (Event.AddFile : String → Event μ)) = [] := by
  induction adds with
  | nil => rfl
  | cons a adds ih => simp [handedManifests]

theorem archiveEntries_AddFile {μ : Type} (adds : List String) :
    archiveEntries (adds.map (Event.AddFile : String → Event μ)) = adds := by
  induction adds with
  | nil => rfl
  | cons a adds ih => simpa [archiveEntries] using ih

theorem handedManifests_Build {μ : Type} (env : Env) (b : DiffACIBuilder)
    (im : ImageManifest μ) (changes : List Change) (wl : List String)
    (hdiff : env.Diff b.baseRootFS b.rootFS = .ok changes)
    (hwl : composeWhitelist env b.rootFS (selectFiles b.rootFS changes).hasDeleted =
      (wl, none)) :
    handedManifests (DiffACIBuilder.Build env b im).trace =
      [{ Fields := im.Fields, PathWhitelist := wl }] := by
  obtain ⟨adds, closing, htrace, hclosing, -, -⟩ := Build_reaches env b im changes wl hdiff hwl
  rw [htrace]
  have hadds := handedManifests_AddFile (μ := μ) adds
  unfold handedManifests at hadds ⊢
  rcases hclosing with h | h <;>
    cases hdel : (selectFiles b.rootFS changes).hasDeleted <;>
    simp [h, List.filterMap_append, hadds]

theorem archiveEntries_Build {μ : Type} (env : Env) (b : DiffACIBuilder)
    (im : ImageManifest μ) (changes : List Change) (wl : List String)
    (hdiff : env.Diff b.baseRootFS b.rootFS = .ok changes)
    (hwl : composeWhitelist env b.rootFS (selectFiles b.rootFS changes).hasDeleted =
      (wl, none)) :
    (∀ p ∈ archiveEntries (DiffACIBuilder.Build env b im).trace,
      p ∈ (selectFiles b.rootFS changes).files) ∧
    ((DiffACIBuilder.Build env b im).err = none →
      archiveEntries (DiffACIBuilder.Build env b im).trace =
        ((visits b.path (env.Tree b.path)).map (fun v => v.path)).filter
          (fun p => decide (p ∈ (selectFiles b.rootFS changes).files))) := by
  obtain ⟨adds, closing, htrace, hclosing, hmem, hok⟩ :=
    Build_reaches env b im changes wl hdiff hwl
  have hadds := archiveEntries_AddFile (μ := μ) adds
  have hentries : archiveEntries (DiffACIBuilder.Build env b im).trace = adds := by
    rw [htrace]
    unfold archiveEntries at hadds ⊢
    rcases hclosing with h | h <;>
      cases hdel : (selectFiles b.rootFS changes).hasDeleted <;>
      simp [h, List.filterMap_append, hadds]
  rw [hentries]
  exact ⟨hmem, fun h => (hok h).2.2⟩

theorem Build_ok_whitelist {μ : Type} (env : Env) (b : DiffACIBuilder)
    (im : ImageManifest μ) (changes : List Change)
    (hdiff : env.Diff b.baseRootFS b.rootFS = .ok changes)
    (hok : (DiffACIBuilder.Build env b im).err = none) :
    ∃ wl, composeWhitelist env b.rootFS (selectFiles b.rootFS changes).hasDeleted =
      (wl, none) := by
  rcases h : composeWhitelist env b.rootFS (selectFiles b.rootFS changes).hasDeleted with
    ⟨wl, _ | err⟩
  · exact ⟨wl, rfl⟩
  · rw [Build_whitelist_error env b im changes wl err hdiff h] at hok
    simp at hok

/-! ## The claims -/

/-- C1: for every target path and every list of change records, the set `files`
computed by `Build` is exactly the set of `Join(rootFS, c.Path)` over the records `c`
that are Added or Modified, where `rootFS = Join(path, "/rootfs")`; a record that is
Unchanged or Deleted adds nothing, and on a list of the Differ, where every path has
exactly one record, the path of an Unchanged or Deleted record is never a member. -/
theorem files_inclusion (path : String) (changes : List Change) :
    ((selectFiles (Join path "/rootfs") changes).files : Set String) =
      {p | ∃ c ∈ changes, (c.ChangeType = .Added ∨ c.ChangeType = .Modified) ∧
        p = Join (Join path "/rootfs") c.Path} ∧
    (∀ (sel : Selection) (c : Change), c.ChangeType = .Unchanged ∨ c.ChangeType = .Deleted →
      (selectStep (Join path "/rootfs") sel c).files = sel.files) ∧
    (OneRecordPerPath (Join path "/rootfs") changes →
      ∀ c ∈ changes, c.ChangeType = .Unchanged ∨ c.ChangeType = .Deleted →
        Join (Join path "/rootfs") c.Path ∉ (selectFiles (Join path "/rootfs") changes).files) := by
  refine ⟨?_, ?_, ?_⟩
  · ext p
    simp only [Finset.mem_coe, Set.mem_setOf_eq]
    exact mem_selectFiles _ _ _
  · intro sel c hc
    have h : ¬(c.ChangeType = .Added ∨ c.ChangeType = .Modified) := by
      rcases hc with h | h <;> simp [h]
    simp [selectStep, h]
  · intro hone c hc hkind hmem
    rw [mem_selectFiles] at hmem
    obtain ⟨c1, hc1, hkind1, hpath⟩ := hmem
    have hsame : c = c1 :=
      List.inj_on_of_nodup_map hone hc hc1 hpath
    subst hsame
    rcases hkind with h | h <;> rcases hkind1 with h1 | h1 <;> rw [h] at h1 <;>
      exact ChangeType.noConfusion h1

/-- A list of the Differ with an Unchanged, a Deleted and an Added record, as an instance
of C1: the paths of the Unchanged and of the Deleted record are not members. -/
theorem files_inclusion_witness :
    OneRecordPerPath (Join "/target" "/rootfs")
      [⟨"a.txt", .Unchanged⟩, ⟨"b.txt", .Deleted⟩, ⟨"c.txt", .Added⟩] ∧
    (∀ c ∈ [(⟨"a.txt", .Unchanged⟩ : Change), ⟨"b.txt", .Deleted⟩, ⟨"c.txt", .Added⟩],
      c.ChangeType = .Unchanged ∨ c.ChangeType = .Deleted →
        Join (Join "/target" "/rootfs") c.Path ∉
          (selectFiles (Join "/target" "/rootfs")
            [⟨"a.txt", .Unchanged⟩, ⟨"b.txt", .Deleted⟩, ⟨"c.txt", .Added⟩]).files) :=
  ⟨by unfold OneRecordPerPath; decide,
    (files_inclusion "/target"
      [⟨"a.txt", .Unchanged⟩, ⟨"b.txt", .Deleted⟩, ⟨"c.txt", .Added⟩]).2.2
      (by unfold OneRecordPerPath; decide)⟩

/-- C2: for every list of change records, the flag `hasDeleted` computed by `Build` is
true if and only if at least one record is Deleted; it is the boolean OR of
`c.ChangeType == Deleted` over the list, and so the same for any reordering of the
records. -/
theorem hasDeleted_iff (path : String) (changes : List Change) :
    ((selectFiles (Join path "/rootfs") changes).hasDeleted = true ↔
      ∃ c ∈ changes, c.ChangeType = .Deleted) ∧
    (selectFiles (Join path "/rootfs") changes).hasDeleted =
      changes.any (fun c => decide (c.ChangeType = .Deleted)) ∧
    (∀ reordered : List Change, changes.Perm reordered →
      (selectFiles (Join path "/rootfs") reordered).hasDeleted =
        (selectFiles (Join path "/rootfs") changes).hasDeleted) := by
  refine ⟨?_, selectFiles_hasDeleted _ _, ?_⟩
  · rw [selectFiles_hasDeleted]
    simp
  · intro reordered hperm
    rw [selectFiles_hasDeleted, selectFiles_hasDeleted, Bool.eq_iff_iff]
    simp only [List.any_eq_true, decide_eq_true_eq]
    constructor
    · rintro ⟨c, hc, hd⟩
      exact ⟨c, hperm.mem_iff.mpr hc, hd⟩
    · rintro ⟨c, hc, hd⟩
      exact ⟨c, hperm.mem_iff.mp hc, hd⟩

/-- C3: on every run of `Build` that succeeds, exactly one manifest is handed to the
image writer, and `hasDeleted` is true if and only if the whitelist of that manifest is
non-empty and equals the full path listing of the target root file system; if no
record is Deleted the whitelist is empty, whatever the target tree holds. -/
theorem whitelist_trigger {μ : Type} (env : Env) (b : DiffACIBuilder) (im : ImageManifest μ)
    (changes : List Change)
    (hdiff : env.Diff b.baseRootFS b.rootFS = .ok changes)
    (hok : (DiffACIBuilder.Build env b im).err = none) :
    ∃ im1 : ImageManifest μ,
      handedManifests (DiffACIBuilder.Build env b im).trace = [im1] ∧
      ((selectFiles b.rootFS changes).hasDeleted = true ↔
        (im1.PathWhitelist ≠ [] ∧
          im1.PathWhitelist.map Except.ok = pathListing b.rootFS (env.Tree b.rootFS))) ∧
      ((∀ c ∈ changes, c.ChangeType ≠ .Deleted) → im1.PathWhitelist = []) := by
  obtain ⟨wl, hwl⟩ := Build_ok_whitelist env b im changes hdiff hok
  refine ⟨{ Fields := im.Fields, PathWhitelist := wl },
    handedManifests_Build env b im changes wl hdiff hwl, ?_, ?_⟩
  · cases hdel : (selectFiles b.rootFS changes).hasDeleted
    · rw [hdel, composeWhitelist_false] at hwl
      simp only [Prod.mk.injEq, and_true] at hwl
      subst hwl
      simp
    · rw [hdel] at hwl
      have hlist := composeWhitelist_true env b.rootFS wl hwl
      obtain ⟨rest, hrest⟩ := pathListing_head b.rootFS (env.Tree b.rootFS)
      refine ⟨fun _ => ⟨?_, hlist⟩, fun _ => rfl⟩
      intro hnil
      have hwlnil : wl = [] := hnil
      rw [hrest, hwlnil] at hlist
      exact List.noConfusion hlist
  · intro hnone
    have hdel : (selectFiles b.rootFS changes).hasDeleted = false := by
      rw [selectFiles_hasDeleted]
      simpa using hnone
    rw [hdel, composeWhitelist_false] at hwl
    simp only [Prod.mk.injEq, and_true] at hwl
    exact hwl.symm

/-- The deletion scenario and a world without deletion, as instances of C3. -/
theorem whitelist_trigger_witness :
    (deletionEnv.Diff exampleBuilder.baseRootFS exampleBuilder.rootFS =
        .ok [⟨"b.txt", .Deleted⟩] ∧
      (DiffACIBuilder.Build deletionEnv exampleBuilder (⟨(), []⟩ : ImageManifest Unit)).err =
        none) ∧
    ∃ im1 : ImageManifest Unit,
      handedManifests
        (DiffACIBuilder.Build deletionEnv exampleBuilder (⟨(), []⟩ : ImageManifest Unit)).trace =
          [im1] ∧
      ((selectFiles exampleBuilder.rootFS [⟨"b.txt", .Deleted⟩]).hasDeleted = true ↔
        (im1.PathWhitelist ≠ [] ∧
          im1.PathWhitelist.map Except.ok =
            pathListing exampleBuilder.rootFS (deletionEnv.Tree exampleBuilder.rootFS))) ∧
      ((∀ c ∈ [(⟨"b.txt", .Deleted⟩ : Change)], c.ChangeType ≠ .Deleted) →
        im1.PathWhitelist = []) :=
  ⟨⟨rfl, by decide⟩,
    whitelist_trigger deletionEnv exampleBuilder ⟨(), []⟩ [⟨"b.txt", .Deleted⟩] rfl
      (by decide)⟩

/-- C4: when `hasDeleted` is true and the walk of the target root file system
succeeds, the whitelist is, in traversal order, one string per entry the walk reaches
(of any type), namely `Join("/", Rel(rootFS, entry))`; every element starts with `/`
and there are as many elements as entries reached. -/
theorem whitelist_listing (env : Env) (b : DiffACIBuilder) (wl : List String)
    (hwalk : composeWhitelist env b.rootFS true = (wl, none)) :
    wl.map Except.ok =
      (visits b.rootFS (env.Tree b.rootFS)).map
        (fun v => (Rel b.rootFS v.path).map (Join "/")) ∧
    (∀ s ∈ wl, ∃ rest : String, s = "/" ++ rest) ∧
    wl.length = (visits b.rootFS (env.Tree b.rootFS)).length := by
  have hlist := composeWhitelist_true env b.rootFS wl hwalk
  refine ⟨hlist, ?_, ?_⟩
  · intro s hs
    apply pathListing_rooted b.rootFS (env.Tree b.rootFS) s
    rw [← hlist]
    exact List.mem_map_of_mem _ hs
  · have h := congrArg List.length hlist
    simpa [pathListing] using h

/-- The deletion scenario as an instance of C4: base `{a.txt, b.txt}`, target
`{a.txt}` gives the whitelist `/a.txt` together with the entry `/` of the root
directory. -/
theorem whitelist_listing_witness :
    composeWhitelist deletionEnv exampleBuilder.rootFS true = (["/", "/a.txt"], none) ∧
    (["/", "/a.txt"].map Except.ok =
      (visits exampleBuilder.rootFS (deletionEnv.Tree exampleBuilder.rootFS)).map
        (fun v => (Rel exampleBuilder.rootFS v.path).map (Join "/")) ∧
    (∀ s ∈ ["/", "/a.txt"], ∃ rest : String, s = "/" ++ rest) ∧
    ["/", "/a.txt"].length =
      (visits exampleBuilder.rootFS (deletionEnv.Tree exampleBuilder.rootFS)).length) :=
  ⟨by decide, whitelist_listing deletionEnv exampleBuilder ["/", "/a.txt"] (by decide)⟩

/-- C10: whenever at least one record is Deleted and the whitelist walk succeeds, the
first element of the whitelist is `/`, the entry of the target root file system
itself (`Rel(rootFS, rootFS) = "."` and `Join("/", ".") = "/"`); so the whitelist is
non-empty, it is `["/"]` when the target root file system is an empty directory, and
in the deletion scenario (target `{a.txt}`) it is `["/", "/a.txt"]`. -/
theorem whitelist_head (env : Env) (b : DiffACIBuilder) (changes : List Change)
    (wl : List String)
    (hdel : ∃ c ∈ changes, c.ChangeType = .Deleted)
    (hwalk : composeWhitelist env b.rootFS (selectFiles b.rootFS changes).hasDeleted =
      (wl, none)) :
    (Rel b.rootFS b.rootFS = .ok "." ∧ Join "/" "." = "/") ∧
    wl.head? = some "/" ∧
    wl ≠ [] ∧
    (env.Tree b.rootFS = .dir .nil → wl = ["/"]) ∧
    composeWhitelist deletionEnv exampleBuilder.rootFS
      (selectFiles exampleBuilder.rootFS [⟨"b.txt", .Deleted⟩]).hasDeleted =
        (["/", "/a.txt"], none) := by
  have hflag : (selectFiles b.rootFS changes).hasDeleted = true := by
    rw [selectFiles_hasDeleted]
    simpa using hdel
  rw [hflag] at hwalk
  have hlist := composeWhitelist_true env b.rootFS wl hwalk
  obtain ⟨rest, hrest⟩ := pathListing_head b.rootFS (env.Tree b.rootFS)
  rw [hrest] at hlist
  have hhead : wl.head? = some "/" := by
    cases wl with
    | nil => exact List.noConfusion hlist
    | cons s wl =>
      simp only [List.map_cons, List.cons.injEq, Except.ok.injEq] at hlist
      simp [hlist.1]
  refine ⟨⟨Rel_self _, by decide⟩, hhead, ?_, ?_, by decide⟩
  · intro hnil
    rw [hnil] at hhead
    exact Option.noConfusion hhead
  · intro hempty
    have hone := composeWhitelist_true env b.rootFS wl hwalk
    rw [hempty] at hone
    simp only [pathListing, visits, visitsEntries, List.map_cons, List.map_nil,
      rootedPath_self] at hone
    cases wl with
    | nil => exact List.noConfusion hone
    | cons s wl =>
      simp only [List.map_cons, List.cons.injEq, Except.ok.injEq, List.map_eq_nil_iff] at hone
      rw [hone.1, hone.2]

/-- A target root file system that is an empty directory, as an instance of C10. -/
theorem whitelist_head_witness :
    ((∃ c ∈ [(⟨"b.txt", .Deleted⟩ : Change)], c.ChangeType = .Deleted) ∧
      composeWhitelist { deletionEnv with Tree := fun _ => .dir .nil } exampleBuilder.rootFS
        (selectFiles exampleBuilder.rootFS [⟨"b.txt", .Deleted⟩]).hasDeleted = (["/"], none)) ∧
    ["/"].head? = some "/" ∧ ["/"] ≠ ([] : List String) :=
  ⟨⟨⟨⟨"b.txt", .Deleted⟩, by decide, rfl⟩, by decide⟩,
    (whitelist_head { deletionEnv with Tree := fun _ => .dir .nil } exampleBuilder
      [⟨"b.txt", .Deleted⟩] ["/"] ⟨⟨"b.txt", .Deleted⟩, by decide, rfl⟩ (by decide)).2.1,
    (whitelist_head { deletionEnv with Tree := fun _ => .dir .nil } exampleBuilder
      [⟨"b.txt", .Deleted⟩] ["/"] ⟨⟨"b.txt", .Deleted⟩, by decide, rfl⟩ (by decide)).2.2.1⟩

/-- C7: for every manifest `im` of the caller, every manifest that `Build` hands to
the image writer has the fields of `im` other than `PathWhitelist` unchanged and
carries as `PathWhitelist` the computed whitelist; when the Differ and the whitelist
walk succeed exactly one manifest is handed, and without deletions its whitelist is
the empty sequence, whatever whitelist the caller supplied. -/
theorem manifest_frame {μ : Type} (env : Env) (b : DiffACIBuilder) (im : ImageManifest μ) :
    (∀ im1 ∈ handedManifests (DiffACIBuilder.Build env b im).trace,
      im1.Fields = im.Fields ∧
      ∃ changes, env.Diff b.baseRootFS b.rootFS = .ok changes ∧
        composeWhitelist env b.rootFS (selectFiles b.rootFS changes).hasDeleted =
          (im1.PathWhitelist, none)) ∧
    (∀ changes wl, env.Diff b.baseRootFS b.rootFS = .ok changes →
      composeWhitelist env b.rootFS (selectFiles b.rootFS changes).hasDeleted = (wl, none) →
      handedManifests (DiffACIBuilder.Build env b im).trace =
        [{ Fields := im.Fields, PathWhitelist := wl }]) ∧
    (∀ changes, env.Diff b.baseRootFS b.rootFS = .ok changes →
      (selectFiles b.rootFS changes).hasDeleted = false →
      handedManifests (DiffACIBuilder.Build env b im).trace =
        [{ Fields := im.Fields, PathWhitelist := [] }]) := by
  refine ⟨?_, fun changes wl hdiff hwl => handedManifests_Build env b im changes wl hdiff hwl,
    ?_⟩
  · intro im1 him1
    cases hdiff : env.Diff b.baseRootFS b.rootFS with
    | error err =>
      rw [Build_diff_error env b im err hdiff] at him1
      simp [handedManifests] at him1
    | ok changes =>
      rcases hwl : composeWhitelist env b.rootFS (selectFiles b.rootFS changes).hasDeleted
        with ⟨wl, _ | err⟩
      · rw [handedManifests_Build env b im changes wl hdiff hwl] at him1
        simp only [List.mem_singleton] at him1
        subst him1
        exact ⟨rfl, changes, rfl, hwl⟩
      · rw [Build_whitelist_error env b im changes wl err hdiff hwl] at him1
        cases hdel : (selectFiles b.rootFS changes).hasDeleted <;>
          simp [handedManifests, hdel] at him1
  · intro changes hdiff hdel
    apply handedManifests_Build env b im changes [] hdiff
    rw [hdel, composeWhitelist_false]

/-- C9: if the Differ fails, `Build` returns the error of the Differ; the Differ was
called once, no walk was made, and no call pushed bytes towards the output stream. -/
theorem diff_error_aborts {μ : Type} (env : Env) (b : DiffACIBuilder) (im : ImageManifest μ)
    (err : GoError) (hdiff : env.Diff b.baseRootFS b.rootFS = .error err) :
    (DiffACIBuilder.Build env b im).err = some err ∧
    (DiffACIBuilder.Build env b im).trace = [.Diff b.baseRootFS b.rootFS] ∧
    walkedRoots (DiffACIBuilder.Build env b im).trace = [] ∧
    (∀ e ∈ (DiffACIBuilder.Build env b im).trace, e.writes = false) := by
  rw [Build_diff_error env b im err hdiff]
  simp [walkedRoots, Event.writes]

/-- A world in which the Differ fails, as an instance of C9. -/
theorem diff_error_aborts_witness :
    diffFailEnv.Diff exampleBuilder.baseRootFS exampleBuilder.rootFS =
      .error (.New "lstat /base/rootfs: no such file") ∧
    (DiffACIBuilder.Build diffFailEnv exampleBuilder (⟨(), []⟩ : ImageManifest Unit)).err =
      some (.New "lstat /base/rootfs: no such file") ∧
    (DiffACIBuilder.Build diffFailEnv exampleBuilder (⟨(), []⟩ : ImageManifest Unit)).trace =
      [.Diff exampleBuilder.baseRootFS exampleBuilder.rootFS] ∧
    walkedRoots
      (DiffACIBuilder.Build diffFailEnv exampleBuilder (⟨(), []⟩ : ImageManifest Unit)).trace =
        [] ∧
    (∀ e ∈ (DiffACIBuilder.Build diffFailEnv exampleBuilder
        (⟨(), []⟩ : ImageManifest Unit)).trace, e.writes = false) :=
  ⟨rfl, diff_error_aborts diffFailEnv exampleBuilder ⟨(), []⟩ _ rfl⟩

/-- An instance of C7 without deletions: the whitelist supplied by the caller is
replaced by the empty sequence and the other fields are kept. -/
theorem manifest_frame_witness :
    (additionEnv.Diff exampleBuilder.baseRootFS exampleBuilder.rootFS =
        .ok [⟨"a.txt", .Unchanged⟩, ⟨"b.txt", .Modified⟩, ⟨"c.txt", .Added⟩] ∧
      (selectFiles exampleBuilder.rootFS
        [⟨"a.txt", .Unchanged⟩, ⟨"b.txt", .Modified⟩, ⟨"c.txt", .Added⟩]).hasDeleted = false) ∧
    handedManifests (DiffACIBuilder.Build additionEnv exampleBuilder
      (⟨"example.com/app", ["/stale"]⟩ : ImageManifest String)).trace =
        [{ Fields := "example.com/app", PathWhitelist := [] }] :=
  ⟨⟨rfl, by decide⟩,
    (manifest_frame additionEnv exampleBuilder ⟨"example.com/app", ["/stale"]⟩).2.2
      [⟨"a.txt", .Unchanged⟩, ⟨"b.txt", .Modified⟩, ⟨"c.txt", .Added⟩] rfl (by decide)⟩

/-- C5 fails on the code: the callback of the whitelist walk does the same whatever
error the walk hands it.  With a Deleted record and a directory `d` of the target root
file system that cannot be listed, the whitelist walk succeeds with the partial
whitelist `["/", "/a.txt", "/d"]`; `Build` goes on, hands a manifest with that
whitelist to the image writer and closes both stream layers, which writes to the
output.  When the target root file system itself cannot be read and the rest of the
target can, `Build` even returns nil. -/
theorem walk_error_swallowed :
    (∀ (rootFS path : String) (info : Option FileInfo) (err : Option GoError)
      (pathWhitelist : List String),
      whitelistFn rootFS path info err pathWhitelist =
        whitelistFn rootFS path info none pathWhitelist) ∧
    (⟨"/target/rootfs/d", some ⟨true⟩, some (.New "open d: permission denied")⟩ : Visit) ∈
      visits exampleBuilder.rootFS (unreadableEnv.Tree exampleBuilder.rootFS) ∧
    composeWhitelist unreadableEnv exampleBuilder.rootFS true =
      (["/", "/a.txt", "/d"], none) ∧
    (DiffACIBuilder.Build unreadableEnv exampleBuilder (⟨(), []⟩ : ImageManifest Unit)).trace =
      [.Diff "/base/rootfs" "/target/rootfs", .Walk "/target/rootfs", .GzipNewWriter,
        .TarNewWriter, .NewImageWriter ⟨(), ["/", "/a.txt", "/d"]⟩, .Walk "/target",
        .TarClose none, .GzipClose none] ∧
    (∃ e ∈ (DiffACIBuilder.Build unreadableEnv exampleBuilder
        (⟨(), []⟩ : ImageManifest Unit)).trace, e.writes = true) ∧
    visits exampleBuilder.rootFS (missingRootfsEnv.Tree exampleBuilder.rootFS) =
      [⟨"/target/rootfs", none, some (.New "lstat /target/rootfs: no such file or directory")⟩] ∧
    (DiffACIBuilder.Build missingRootfsEnv exampleBuilder (⟨(), []⟩ : ImageManifest Unit)).err =
      none ∧
    handedManifests (DiffACIBuilder.Build missingRootfsEnv exampleBuilder
      (⟨(), []⟩ : ImageManifest Unit)).trace = [⟨(), ["/"]⟩] := by
  refine ⟨fun _ _ _ _ _ => rfl, by decide, by decide, by decide,
    ⟨.GzipClose none, by decide, rfl⟩, by decide, by decide, by decide⟩

/-- C6 fails on the code: in a world where every call succeeds except the close of the
gzip writer, `Build` closes the gzip writer, the close fails, and `Build` returns nil;
the same holds when only the deferred close of the tar writer fails. -/
theorem close_error_dropped :
    gzipCloseFailEnv.gwClose = some (.New "write: no space left on device") ∧
    Event.GzipClose (some (.New "write: no space left on device")) ∈
      (DiffACIBuilder.Build gzipCloseFailEnv exampleBuilder
        (⟨(), []⟩ : ImageManifest Unit)).trace ∧
    (DiffACIBuilder.Build gzipCloseFailEnv exampleBuilder
      (⟨(), []⟩ : ImageManifest Unit)).err = none ∧
    Event.TarClose (some (.New "write: broken pipe")) ∈
      (DiffACIBuilder.Build tarCloseFailEnv exampleBuilder
        (⟨(), []⟩ : ImageManifest Unit)).trace ∧
    (DiffACIBuilder.Build tarCloseFailEnv exampleBuilder
      (⟨(), []⟩ : ImageManifest Unit)).err = none := by
  refine ⟨rfl, by decide, by decide, by decide, by decide⟩

/-- C8: on every run of `Build` that succeeds, every file entry written into the
archive has a path that is a member of the inclusion set; the entries written are, in
traversal order, the entries reached by the walk of the target path whose path is a
member, the walk going through the whole tree, so entries outside the set are skipped
without stopping it; and, every member of the inclusion set existing under the target,
every member has exactly one archive entry. -/
theorem archive_membership {μ : Type} (env : Env) (b : DiffACIBuilder) (im : ImageManifest μ)
    (changes : List Change)
    (hdiff : env.Diff b.baseRootFS b.rootFS = .ok changes)
    (hok : (DiffACIBuilder.Build env b im).err = none) :
    (∀ p ∈ archiveEntries (DiffACIBuilder.Build env b im).trace,
      p ∈ (selectFiles b.rootFS changes).files) ∧
    archiveEntries (DiffACIBuilder.Build env b im).trace =
      (targetPaths env b).filter
        (fun p => decide (p ∈ (selectFiles b.rootFS changes).files)) ∧
    (∀ p ∈ (selectFiles b.rootFS changes).files,
      (archiveEntries (DiffACIBuilder.Build env b im).trace).count p =
        (targetPaths env b).count p) ∧
    (ExistsUnderTarget env b (selectFiles b.rootFS changes).files →
      ∀ p ∈ (selectFiles b.rootFS changes).files,
        (archiveEntries (DiffACIBuilder.Build env b im).trace).count p = 1) := by
  obtain ⟨wl, hwl⟩ := Build_ok_whitelist env b im changes hdiff hok
  obtain ⟨hmem, hentries⟩ := archiveEntries_Build env b im changes wl hdiff hwl
  have hcount : ∀ p ∈ (selectFiles b.rootFS changes).files,
      (archiveEntries (DiffACIBuilder.Build env b im).trace).count p =
        (targetPaths env b).count p := by
    intro p hp
    rw [hentries hok, List.count_filter]
    · rfl
    · simpa using hp
  refine ⟨hmem, hentries hok, hcount, ?_⟩
  rintro ⟨hnodup, hexists⟩ p hp
  rw [hcount p hp]
  exact List.count_eq_one_of_mem hnodup (hexists p hp)

/-- A world without deletion as an instance of C8: the archive holds `b.txt` and
`c.txt`, once each. -/
theorem archive_membership_witness :
    (additionEnv.Diff exampleBuilder.baseRootFS exampleBuilder.rootFS =
        .ok [⟨"a.txt", .Unchanged⟩, ⟨"b.txt", .Modified⟩, ⟨"c.txt", .Added⟩] ∧
      (DiffACIBuilder.Build additionEnv exampleBuilder (⟨(), []⟩ : ImageManifest Unit)).err =
        none ∧
      ExistsUnderTarget additionEnv exampleBuilder
        (selectFiles exampleBuilder.rootFS
          [⟨"a.txt", .Unchanged⟩, ⟨"b.txt", .Modified⟩, ⟨"c.txt", .Added⟩]).files) ∧
    archiveEntries
      (DiffACIBuilder.Build additionEnv exampleBuilder (⟨(), []⟩ : ImageManifest Unit)).trace =
        ["/target/rootfs/b.txt", "/target/rootfs/c.txt"] ∧
    (∀ p ∈ (selectFiles exampleBuilder.rootFS
        [⟨"a.txt", .Unchanged⟩, ⟨"b.txt", .Modified⟩, ⟨"c.txt", .Added⟩]).files,
      (archiveEntries (DiffACIBuilder.Build additionEnv exampleBuilder
        (⟨(), []⟩ : ImageManifest Unit)).trace).count p = 1) :=
  ⟨⟨rfl, by decide, by unfold ExistsUnderTarget; decide⟩, by decide,
    (archive_membership additionEnv exampleBuilder ⟨(), []⟩
      [⟨"a.txt", .Unchanged⟩, ⟨"b.txt", .Modified⟩, ⟨"c.txt", .Added⟩] rfl (by decide)).2.2.2
      (by unfold ExistsUnderTarget; decide)⟩

end Acibuilder
